import Mathlib

set_option maxHeartbeats 1000000

/-!
Shallow embedding of the NeoProtect attack notifier (Go sources:
`src/main.go`, `src/neoprotect/client.go`, `src/unnamed/part_001`).

Modelling conventions:
* Go `*time.Time` pointers become `Option Int` (an instant, in nanoseconds,
  matching Go's `time.Duration` base unit); `time.Time.Equal` is instant
  equality.
* Go `nil` slices become `[]`; the `map[string]T` tables built by insertion
  loops become association lists where the same key is overwritten in place
  (`insertKnown`) or, for the signature map in `Attack.Equal`, a lookup in
  which the last insertion wins (`sigLookup`).
* `time.Now()` is threaded as an explicit `now : Int` argument.
* Methods on pointer receivers are modelled on plain values; the `nil`
  receiver guards of `Attack.Equal`/`Attack.CalculateDiff` are unreachable at
  the modelled call sites, where both arguments come from non-nil pointers.
-/

namespace NeoProtect

/-- `AttackSignature` struct, `src/neoprotect/client.go`. -/
structure AttackSignature where
  id : String
  name : String
  startedAt : Option Int
  endedAt : Option Int
  ppsPeak : Int
  bpsPeak : Int
  deriving DecidableEq, Repr

/-- `Attack` struct, `src/neoprotect/client.go` (the `dstAddress` pointer,
unused by every modelled operation, is omitted). -/
structure Attack where
  id : String
  dstAddressString : String
  signatures : List AttackSignature
  startedAt : Option Int
  endedAt : Option Int
  sampleRate : Int
  deriving DecidableEq, Repr

/-- `timeEqual`, `src/neoprotect/client.go`: both nil, or equal instants. -/
def timeEqual (t1 t2 : Option Int) : Bool :=
  match t1, t2 with
  | none, none => true
  | some a, some b => a == b
  | _, _ => false

/-- Lookup in the Go map `aSignatures` built by inserting each signature of a
list keyed by its id: the last insertion for a key wins. -/
def sigLookup (sigs : List AttackSignature) (i : String) : Option AttackSignature :=
  sigs.reverse.find? (fun s => s.id == i)

/-- The per-signature field comparison inside `Attack.Equal`. -/
def sigMatch (aSig sig : AttackSignature) : Bool :=
  aSig.name == sig.name && aSig.ppsPeak == sig.ppsPeak && aSig.bpsPeak == sig.bpsPeak &&
    timeEqual aSig.startedAt sig.startedAt && timeEqual aSig.endedAt sig.endedAt

/-- `Attack.Equal`, `src/neoprotect/client.go` lines 328-366. -/
def Attack.Equal (a other : Attack) : Bool :=
  a.id == other.id && a.dstAddressString == other.dstAddressString &&
    timeEqual a.startedAt other.startedAt && timeEqual a.endedAt other.endedAt &&
    a.signatures.length == other.signatures.length &&
    other.signatures.all (fun sig =>
      match sigLookup a.signatures sig.id with
      | none => false
      | some aSig => sigMatch aSig sig)

/-- `Attack.IsActive`, `src/neoprotect/client.go`. -/
def Attack.IsActive (a : Attack) : Bool :=
  a.endedAt.isNone

/-- `Attack.Duration`, `src/neoprotect/client.go` lines 384-395, with
`time.Now()` passed explicitly. -/
def Attack.Duration (a : Attack) (now : Int) : Int :=
  match a.startedAt with
  | none => 0
  | some s =>
    match a.endedAt with
    | some e => e - s
    | none => now - s

/-- `Attack.GetPeakBPS`, `src/neoprotect/client.go`. -/
def Attack.GetPeakBPS (a : Attack) : Int :=
  a.signatures.foldl (fun peak sig => if sig.bpsPeak > peak then sig.bpsPeak else peak) 0

/-- `Attack.GetPeakPPS`, `src/neoprotect/client.go`. -/
def Attack.GetPeakPPS (a : Attack) : Int :=
  a.signatures.foldl (fun peak sig => if sig.ppsPeak > peak then sig.ppsPeak else peak) 0

/-- Result of `Attack.CalculateDiff`: the Go `map[string]interface\x7b\x7d`
with its conditionally-present keys modelled as `Option` fields. -/
structure AttackDiff where
  ended : Option Bool
  duration : Option Int
  bpsPeakChange : Option Int
  bpsPeakCurrent : Option Int
  ppsPeakChange : Option Int
  ppsPeakCurrent : Option Int
  newSignatures : Option (List String)
  deriving DecidableEq, Repr

/-- `Attack.CalculateDiff`, `src/neoprotect/client.go` lines 435-478 (the
non-nil `previous` path; Go returns `nil` for a nil `previous`).
The `previousSigs` set-membership test is `List.any` over the previous
signatures. -/
def Attack.CalculateDiff (a : Attack) (previous : Attack) (now : Int) : AttackDiff :=
  let endedNow := previous.endedAt.isNone && a.endedAt.isSome
  let currentPeakBPS := a.GetPeakBPS
  let previousPeakBPS := previous.GetPeakBPS
  let currentPeakPPS := a.GetPeakPPS
  let previousPeakPPS := previous.GetPeakPPS
  let newSignatures :=
    (a.signatures.filter (fun sig =>
      !(previous.signatures.any (fun p => p.id == sig.id)))).map AttackSignature.name
  { ended := if endedNow then some true else none
    duration := if endedNow then some (a.Duration now) else none
    bpsPeakChange :=
      if currentPeakBPS != previousPeakBPS then some (currentPeakBPS - previousPeakBPS) else none
    bpsPeakCurrent :=
      if currentPeakBPS != previousPeakBPS then some currentPeakBPS else none
    ppsPeakChange :=
      if currentPeakPPS != previousPeakPPS then some (currentPeakPPS - previousPeakPPS) else none
    ppsPeakCurrent :=
      if currentPeakPPS != previousPeakPPS then some currentPeakPPS else none
    newSignatures := if newSignatures.length > 0 then some newSignatures else none }

/-- Gateway error taxonomy (`ErrNoActiveAttack`, `ErrRequestFailed` wrapped
with status and body, and a JSON decode failure), `src/neoprotect/client.go`. -/
inductive NPError
  | noActiveAttack
  | requestFailed (status : Nat) (body : String)
  | decodeFailed (msg : String)
  deriving DecidableEq, Repr

/-- An upstream HTTP response as consumed by the gateway: status code and
raw body. -/
structure Response where
  statusCode : Nat
  body : String
  deriving DecidableEq, Repr

/-- `Client.GetActiveAttack`, `src/neoprotect/client.go` lines 81-118, from
the response onward (request construction and transport errors are outside
the model); `decode` stands for the JSON decoding of the body. -/
def GetActiveAttack (decode : String → Except String Attack) (resp : Response) :
    Except NPError Attack :=
  if resp.statusCode == 404 then
    Except.error NPError.noActiveAttack
  else if resp.statusCode != 200 then
    Except.error (NPError.requestFailed resp.statusCode resp.body)
  else
    match decode resp.body with
    | Except.error m => Except.error (NPError.decodeFailed m)
    | Except.ok a => Except.ok a

/-- `Config`, `src/unnamed/part_001`, restricted to the fields read by the
monitor loop, plus the `blacklistedIPs` list of the repository's example
configuration. -/
structure Config where
  monitorMode : String
  specificIPs : List String
  blacklistedIPs : List String

/-- Modelled from the spec: `config.IsBlacklisted` is called from
`src/main.go` but its definition is not under `src/`; per the spec's
"address blacklist" configuration surface and the example configuration's
`blacklistedIPs` list, it is membership of the address in the configured
blacklist. -/
def Config.IsBlacklisted (cfg : Config) (ip : String) : Bool :=
  cfg.blacklistedIPs.contains ip

/-- The three notification kinds dispatched by the tracker
(`NotifyNewAttack`, `NotifyAttackUpdate`, `NotifyAttackEnded`). -/
inductive EventType
  | new
  | updated
  | ended
  deriving DecidableEq, Repr

/-- One dispatched notification and the attack value it carried. -/
structure Event where
  type : EventType
  attack : Attack
  deriving DecidableEq, Repr

/-- The known-attacks table `map[string]*neoprotect.Attack` as an association
list; runs starting from the empty table keep its keys pairwise distinct. -/
abbrev KnownAttacks := List (String × Attack)

/-- Go map read `knownAttacks[id]`. -/
def lookupKnown (known : KnownAttacks) (i : String) : Option Attack :=
  (known.find? (fun p => p.1 == i)).map Prod.snd

/-- Go map store `knownAttacks[id] = a`: overwrite in place, else append. -/
def insertKnown (known : KnownAttacks) (i : String) (a : Attack) : KnownAttacks :=
  match known with
  | [] => [(i, a)]
  | (k, v) :: rest => if k == i then (k, a) :: rest else (k, v) :: insertKnown rest i a

/-- `isValidAttack`, `src/main.go` lines 140-151 (the nil-pointer case cannot
arise for a value). -/
def isValidAttack (attack : Attack) : Bool :=
  attack.id != "" && attack.dstAddressString != ""

/-- `processActiveAttacks`, `src/main.go` lines 153-178: classify each
snapshot as New (id unknown) or Updated (known and not `Equal`), write the
table, and record the dispatched notifications in loop order. -/
def processActiveAttacks (attacks : List Attack) (known : KnownAttacks) :
    KnownAttacks × List Event :=
  match attacks with
  | [] => (known, [])
  | attack :: rest =>
    match lookupKnown known attack.id with
    | none =>
      let known1 := insertKnown known attack.id attack
      let (known2, evs) := processActiveAttacks rest known1
      (known2, Event.mk EventType.new attack :: evs)
    | some existingAttack =>
      if attack.Equal existingAttack then
        processActiveAttacks rest known
      else
        let known1 := insertKnown known attack.id attack
        let (known2, evs) := processActiveAttacks rest known1
        (known2, Event.mk EventType.updated attack :: evs)

/-- The loop body of `checkForEndedAttacks` over the table entries: an entry
absent from the active-id set and not yet ended is stamped with `now` and an
Ended notification fires. -/
def checkEndedEntries (now : Int) (activeAttackIDs : List String) (known : KnownAttacks) :
    KnownAttacks × List Event :=
  match known with
  | [] => ([], [])
  | (i, attack) :: rest =>
    let (rest2, evs) := checkEndedEntries now activeAttackIDs rest
    if !activeAttackIDs.contains i && attack.endedAt.isNone then
      let stamped := { attack with endedAt := some now }
      ((i, stamped) :: rest2, Event.mk EventType.ended stamped :: evs)
    else
      ((i, attack) :: rest2, evs)

/-- `checkForEndedAttacks`, `src/main.go` lines 180-199, with `time.Now()`
explicit. -/
def checkForEndedAttacks (now : Int) (activeAttacks : List Attack) (known : KnownAttacks) :
    KnownAttacks × List Event :=
  checkEndedEntries now (activeAttacks.map Attack.id) known

/-- 24 hours in nanoseconds (`24*time.Hour`). -/
def retentionWindow : Int := 24 * 3600 * 1000000000

/-- The retention test of `cleanupEndedAttacks`: an entry is kept unless its
`endedAt` is set and lies more than the retention window before `now`. -/
def retainEntry (now : Int) (a : Attack) : Bool :=
  match a.endedAt with
  | some e => !(now - e > retentionWindow)
  | none => true

/-- `cleanupEndedAttacks`, `src/main.go` lines 201-207: delete every entry
whose `endedAt` lies more than 24 hours before `now` (`time.Since` made
explicit). -/
def cleanupEndedAttacks (now : Int) (known : KnownAttacks) : KnownAttacks :=
  known.filter (fun p => retainEntry now p.2)

/-- Lines 135-137 of `src/main.go`: one tracker pass over the already
filtered, valid snapshot list. -/
def trackerStep (now : Int) (attacks : List Attack) (known : KnownAttacks) :
    KnownAttacks × List Event :=
  let (known1, evs1) := processActiveAttacks attacks known
  let (known2, evs2) := checkForEndedAttacks now attacks known1
  (cleanupEndedAttacks now known2, evs1 ++ evs2)

/-- The mode filter of `fetchAndProcessActiveAttacks`, `src/main.go` lines
100-124; `none` models the early return on an invalid monitor mode. In
"specific" mode the inner loop breaks at the first monitored ip equal to the
target address, appending the attack only when that ip is not blacklisted. -/
def modeFilter (cfg : Config) (attacks : List Attack) : Option (List Attack) :=
  if cfg.monitorMode == "specific" then
    some (attacks.filter (fun attack =>
      cfg.specificIPs.contains attack.dstAddressString &&
        !cfg.IsBlacklisted attack.dstAddressString))
  else if cfg.monitorMode == "all" then
    some (attacks.filter (fun attack => !cfg.IsBlacklisted attack.dstAddressString))
  else
    none

/-- `fetchAndProcessActiveAttacks`, `src/main.go` lines 93-138, with the
outcome of `GetAllAttacksAllPages` passed in as `fetchResult`; a fetch error
logs and returns before any filtering or processing. -/
def fetchAndProcessActiveAttacks (cfg : Config) (now : Int)
    (fetchResult : Except String (List Attack)) (known : KnownAttacks) :
    KnownAttacks × List Event :=
  match fetchResult with
  | Except.error _ => (known, [])
  | Except.ok attacks =>
    match modeFilter cfg attacks with
    | none => (known, [])
    | some filtered =>
      trackerStep now (filtered.filter isValidAttack) known

/-- One poll-cycle input: the `time.Now()` instant and the fetch outcome. -/
abbrev Cycle := Int × Except String (List Attack)

/-- The poll loop of `monitorAttacks`: final state and per-cycle event lists
of a run of `fetchAndProcessActiveAttacks` over a cycle sequence. -/
def runCycles (cfg : Config) (cycles : List Cycle) (known : KnownAttacks) :
    KnownAttacks × List (List Event) :=
  match cycles with
  | [] => (known, [])
  | (now, fetch) :: rest =>
    let (known1, evs) := fetchAndProcessActiveAttacks cfg now fetch known
    let (known2, evss) := runCycles cfg rest known1
    (known2, evs :: evss)

/-- A run of bare tracker passes over already processed snapshot sets. -/
def runTracker (cycles : List (Int × List Attack)) (known : KnownAttacks) :
    KnownAttacks × List (List Event) :=
  match cycles with
  | [] => (known, [])
  | (now, attacks) :: rest =>
    let (known1, evs) := trackerStep now attacks known
    let (known2, evss) := runTracker rest known1
    (known2, evs :: evss)

/-- The table states after each cycle of a tracker run. -/
def trackerStates (cycles : List (Int × List Attack)) (known : KnownAttacks) :
    List KnownAttacks :=
  match cycles with
  | [] => []
  | (now, attacks) :: rest =>
    let known1 := (trackerStep now attacks known).1
    known1 :: trackerStates rest known1

/-- The notification kinds fired for one attack id, in dispatch order. -/
def eventsForId (x : String) (evs : List Event) : List EventType :=
  (evs.filter (fun e => e.attack.id == x)).map Event.type

/-- The notification kinds fired for one id over a whole run. -/
def runEventsForId (x : String) (evss : List (List Event)) : List EventType :=
  eventsForId x evss.flatten

/-- Zero or more Updated events, optionally closed by one final Ended. -/
def updatesThenMaybeEnd : List EventType → Bool
  | [] => true
  | EventType.updated :: rest => updatesThenMaybeEnd rest
  | EventType.ended :: rest => rest.isEmpty
  | EventType.new :: _ => false

/-- The lifecycle order New, then Updated\*, then at most one Ended — or no
event at all. -/
def lifecycleOrdered : List EventType → Bool
  | [] => true
  | EventType.new :: rest => updatesThenMaybeEnd rest
  | _ => false

/-- Well-formedness of the known-attacks table, established by every run
that starts from the empty table: keys are pairwise distinct and every
entry's value carries the entry's key as its attack id (Go always stores
`knownAttacks[attack.ID] = attack`). -/
def WFKnown (known : KnownAttacks) : Prop :=
  (known.map Prod.fst).Nodup ∧ ∀ p ∈ known, p.2.id = p.1

/-- Once an id is absent from one snapshot set, it stays absent from every
later one. -/
def noReappear (x : String) : List (List String) → Bool
  | [] => true
  | ids :: rest =>
    if ids.contains x then noReappear x rest
    else rest.all (fun ids2 => !ids2.contains x)

/-! Concrete values used by the scenario theorems, counterexamples and
witnesses. `sigSYN`, `sigUDP`, `attackA1` and `attackA1v2` are the spec's
update scenario; `attackDup`/`attackDupB` carry a repeated signature id. -/

/-- The scenario signature `s1` (SYN, bpsPeak 1000, ppsPeak 10). -/
def sigSYN : AttackSignature :=
  { id := "s1", name := "SYN", startedAt := some 0, endedAt := none,
    ppsPeak := 10, bpsPeak := 1000 }

/-- The scenario signature `s2` (UDP, bpsPeak 5000, ppsPeak 50). -/
def sigUDP : AttackSignature :=
  { id := "s2", name := "UDP", startedAt := some 0, endedAt := none,
    ppsPeak := 50, bpsPeak := 5000 }

/-- The scenario attack A1 as first seen (one SYN signature). -/
def attackA1 : Attack :=
  { id := "A1", dstAddressString := "1.2.3.4", signatures := [sigSYN],
    startedAt := some 0, endedAt := none, sampleRate := 0 }

/-- The cycle-2 snapshot of A1 with the added UDP signature. -/
def attackA1v2 : Attack :=
  { attackA1 with signatures := [sigSYN, sigUDP] }

/-- A signature with id `s1` and name `A`. -/
def sigDupA : AttackSignature :=
  { id := "s1", name := "A", startedAt := none, endedAt := none,
    ppsPeak := 0, bpsPeak := 0 }

/-- A second signature with the same id `s1` but name `B`. -/
def sigDupB : AttackSignature :=
  { sigDupA with name := "B" }

/-- An attack whose signature list repeats the id `s1` with two different
names. -/
def attackDup : Attack :=
  { id := "D", dstAddressString := "9.9.9.9", signatures := [sigDupA, sigDupB],
    startedAt := none, endedAt := none, sampleRate := 0 }

/-- The same attack with both occurrences of `s1` equal to `sigDupB`. -/
def attackDupB : Attack :=
  { attackDup with signatures := [sigDupB, sigDupB] }

/-- A decoder that always succeeds with `attackA1`. -/
def decodeOk : String → Except String Attack :=
  fun _ => Except.ok attackA1

/-- A configuration monitoring all addresses with one blacklisted address. -/
def cfgAll : Config :=
  { monitorMode := "all", specificIPs := [], blacklistedIPs := ["6.6.6.6"] }

/-! Theorems. -/

/-- C4: in the concrete update scenario, the cycle-2 snapshot `attackA1v2`
(which adds the UDP signature) is not `Equal` to the previous state
`attackA1`, and for every current instant the diff reports exactly the new
signature name UDP and a bps peak change of 4000. -/
theorem update_scenario_equal_false_and_diff :
    Attack.Equal attackA1v2 attackA1 = false ∧
    ∀ now : Int,
      (Attack.CalculateDiff attackA1v2 attackA1 now).newSignatures = some ["UDP"] ∧
      (Attack.CalculateDiff attackA1v2 attackA1 now).bpsPeakChange = some 4000 :=
  ⟨by decide, fun _ => ⟨rfl, rfl⟩⟩

/-- C7: a failed snapshot fetch aborts the whole poll cycle: no notification
event is dispatched and the known-attacks table is returned unchanged. -/
theorem fetch_failure_leaves_cycle_untouched (cfg : Config) (now : Int) (msg : String)
    (known : KnownAttacks) :
    fetchAndProcessActiveAttacks cfg now (Except.error msg) known = (known, []) :=
  rfl

/-- C10: `Attack.Duration` is total: an absent `startedAt` yields the zero
duration, and a present one yields (`endedAt` if set, otherwise the current
instant) minus `startedAt`. -/
theorem duration_total_characterization (a : Attack) (now : Int) :
    a.Duration now =
      match a.startedAt with
      | none => 0
      | some s => a.endedAt.getD now - s := by
  cases hs : a.startedAt with
  | none => simp [Attack.Duration, hs]
  | some s => cases he : a.endedAt <;> simp [Attack.Duration, hs, he]

/-- C9: the diff of an attack against itself carries no entry at all: no
peak changes, no new signatures, no ended marker. -/
theorem calculateDiff_self_trivial (a : Attack) (now : Int) :
    a.CalculateDiff a now = AttackDiff.mk none none none none none none none := by
  have hfilter : a.signatures.filter (fun sig =>
      !(a.signatures.any (fun p => p.id == sig.id))) = [] := by
    rw [List.filter_eq_nil_iff]
    intro s hs
    simp only [Bool.not_eq_true', Bool.not_eq_false, List.any_eq_true]
    exact ⟨s, hs, by simp⟩
  have hended : (a.endedAt.isNone && a.endedAt.isSome) = false := by
    cases a.endedAt <;> rfl
  simp [Attack.CalculateDiff, hfilter, hended]

/-- C5: the retention sweep keeps exactly the entries that are not ended
more than 24 hours before `now`: an entry survives the sweep iff it was in
the table and its `endedAt`, when set, is at most 24 hours old. -/
theorem cleanup_retention_exact (now : Int) (known : KnownAttacks) (p : String × Attack) :
    p ∈ cleanupEndedAttacks now known ↔
      p ∈ known ∧ ∀ e, p.2.endedAt = some e → now - e ≤ retentionWindow := by
  unfold cleanupEndedAttacks
  rw [List.mem_filter]
  refine and_congr_right fun _ => ?_
  cases he : p.2.endedAt with
  | none => simp [retainEntry, he]
  | some e => simp [retainEntry, he, not_lt]

/-- Witness for C5: a concrete sweep at `now = 10` keeps an entry ended at
instant 9 (one nanosecond ago). -/
theorem cleanup_retention_exact_witness :
    ("E", { attackA1 with endedAt := some 9 }) ∈
      cleanupEndedAttacks 10 [("E", { attackA1 with endedAt := some 9 })] :=
  (cleanup_retention_exact 10 [("E", { attackA1 with endedAt := some 9 })]
    ("E", { attackA1 with endedAt := some 9 })).mpr ⟨by decide, by decide⟩

/-- C8: the single-address gateway fetch fails with the distinguished
no-active-attack error exactly on upstream status 404, fails with a
request-failed error carrying status and body on every other non-200
status, and returns the decoded attack on status 200. -/
theorem getActiveAttack_status_classification (decode : String → Except String Attack)
    (resp : Response) :
    (GetActiveAttack decode resp = Except.error NPError.noActiveAttack ↔
      resp.statusCode = 404) ∧
    (resp.statusCode ≠ 404 → resp.statusCode ≠ 200 →
      GetActiveAttack decode resp =
        Except.error (NPError.requestFailed resp.statusCode resp.body)) ∧
    (∀ a, resp.statusCode = 200 → decode resp.body = Except.ok a →
      GetActiveAttack decode resp = Except.ok a) := by
  unfold GetActiveAttack
  by_cases h404 : resp.statusCode = 404
  · simp [h404]
  · by_cases h200 : resp.statusCode = 200
    · cases hdec : decode resp.body <;> simp [h404, h200, hdec]
    · simp [h404, h200]

/-- Witness for C8: at status 500 the result is the request-failed error,
and at status 200 with a successful decode the decoded attack is returned. -/
theorem getActiveAttack_status_classification_witness :
    GetActiveAttack decodeOk (Response.mk 500 "oops") =
      Except.error (NPError.requestFailed 500 "oops") ∧
    GetActiveAttack decodeOk (Response.mk 200 "body") = Except.ok attackA1 :=
  ⟨(getActiveAttack_status_classification decodeOk (Response.mk 500 "oops")).2.1
      (by decide) (by decide),
   (getActiveAttack_status_classification decodeOk (Response.mk 200 "body")).2.2
      attackA1 rfl rfl⟩

/-- Counterexample for C3: with a repeated signature id, `Equal` is neither
reflexive nor symmetric — `attackDup` (ids s1, s1 with names A, B) is not
`Equal` to itself, and `Equal attackDup attackDupB` is true while the
swapped comparison is false. -/
theorem equal_not_reflexive_on_duplicate_ids :
    Attack.Equal attackDup attackDup = false ∧
    Attack.Equal attackDup attackDupB = true ∧
    Attack.Equal attackDupB attackDup = false := by
  decide

theorem timeEqual_self (t : Option Int) : timeEqual t t = true := by
  cases t <;> simp [timeEqual]

theorem timeEqual_comm (t1 t2 : Option Int) : timeEqual t1 t2 = timeEqual t2 t1 := by
  cases t1 <;> cases t2 <;> simp [timeEqual, beq_iff_eq, eq_comm]

theorem sigMatch_self (s : AttackSignature) : sigMatch s s = true := by
  simp [sigMatch, timeEqual_self]

theorem sigMatch_symm {s t : AttackSignature} (h : sigMatch s t = true) :
    sigMatch t s = true := by
  simp only [sigMatch, Bool.and_eq_true, beq_iff_eq] at h ⊢
  obtain ⟨⟨⟨⟨h1, h2⟩, h3⟩, h4⟩, h5⟩ := h
  rw [timeEqual_comm] at h4
  rw [timeEqual_comm] at h5
  exact ⟨⟨⟨⟨h1.symm, h2.symm⟩, h3.symm⟩, h4⟩, h5⟩

theorem sigLookup_mem {sigs : List AttackSignature} {i : String} {s : AttackSignature}
    (h : sigLookup sigs i = some s) : s ∈ sigs ∧ s.id = i := by
  unfold sigLookup at h
  refine ⟨List.mem_reverse.mp (List.mem_of_find?_eq_some h), ?_⟩
  have := List.find?_some h
  simpa [beq_iff_eq] using this

theorem find_id_eq_self_of_nodup {s : AttackSignature} :
    ∀ (l : List AttackSignature), (l.map AttackSignature.id).Nodup → s ∈ l →
      l.find? (fun t => t.id == s.id) = some s := by
  intro l
  induction l with
  | nil => intro _ h; cases h
  | cons t rest ih =>
    intro hnd hmem
    rw [List.map_cons, List.nodup_cons] at hnd
    by_cases hid : t.id = s.id
    · have hts : t = s := by
        rcases List.mem_cons.mp hmem with h | h
        · exact h.symm
        · exact absurd (hid ▸ List.mem_map_of_mem AttackSignature.id h) hnd.1
      simp [List.find?_cons, hts]
    · have hs : s ∈ rest := by
        rcases List.mem_cons.mp hmem with h | h
        · exact absurd (congrArg AttackSignature.id h.symm) hid
        · exact h
      have : (t.id == s.id) = false := by simp [hid]
      simp [List.find?_cons, this, ih hnd.2 hs]

theorem sigLookup_self_of_nodup {sigs : List AttackSignature} {s : AttackSignature}
    (hnd : (sigs.map AttackSignature.id).Nodup) (hmem : s ∈ sigs) :
    sigLookup sigs s.id = some s := by
  unfold sigLookup
  exact find_id_eq_self_of_nodup sigs.reverse
    (by rw [List.map_reverse]; exact List.nodup_reverse.mpr hnd) (List.mem_reverse.mpr hmem)

theorem sigLookup_branch_eq_true (sigs : List AttackSignature) (sig : AttackSignature) :
    (match sigLookup sigs sig.id with
     | none => false
     | some aSig => sigMatch aSig sig) = true ↔
      ∃ aSig, sigLookup sigs sig.id = some aSig ∧ sigMatch aSig sig = true := by
  cases h : sigLookup sigs sig.id <;> simp [h]

theorem equal_eq_true_iff (a b : Attack) :
    Attack.Equal a b = true ↔
      a.id = b.id ∧ a.dstAddressString = b.dstAddressString ∧
      timeEqual a.startedAt b.startedAt = true ∧
      timeEqual a.endedAt b.endedAt = true ∧
      a.signatures.length = b.signatures.length ∧
      ∀ sig ∈ b.signatures, ∃ aSig,
        sigLookup a.signatures sig.id = some aSig ∧ sigMatch aSig sig = true := by
  simp only [Attack.Equal, Bool.and_eq_true, beq_iff_eq, List.all_eq_true,
    sigLookup_branch_eq_true]
  tauto

theorem equal_of_equal_of_nodup {a b : Attack}
    (ha : (a.signatures.map AttackSignature.id).Nodup)
    (hb : (b.signatures.map AttackSignature.id).Nodup)
    (h : Attack.Equal a b = true) : Attack.Equal b a = true := by
  rw [equal_eq_true_iff] at h ⊢
  obtain ⟨hid, hdst, hst, hen, hlen, hall⟩ := h
  have hsub : (b.signatures.map AttackSignature.id).toFinset ⊆
      (a.signatures.map AttackSignature.id).toFinset := by
    intro i hi
    rw [List.mem_toFinset, List.mem_map] at hi
    obtain ⟨sig, hsig, rfl⟩ := hi
    obtain ⟨aSig, hlook, _⟩ := hall sig hsig
    obtain ⟨hmem, hida⟩ := sigLookup_mem hlook
    rw [List.mem_toFinset, List.mem_map]
    exact ⟨aSig, hmem, hida⟩
  have hcards : (a.signatures.map AttackSignature.id).toFinset.card ≤
      (b.signatures.map AttackSignature.id).toFinset.card := by
    rw [List.toFinset_card_of_nodup ha, List.toFinset_card_of_nodup hb]
    simp [hlen]
  have hfeq : (b.signatures.map AttackSignature.id).toFinset =
      (a.signatures.map AttackSignature.id).toFinset :=
    Finset.eq_of_subset_of_card_le hsub hcards
  refine ⟨hid.symm, hdst.symm, by rwa [timeEqual_comm], by rwa [timeEqual_comm],
    hlen.symm, ?_⟩
  intro sig' hsig'
  have hidb : sig'.id ∈ b.signatures.map AttackSignature.id := by
    have : sig'.id ∈ (a.signatures.map AttackSignature.id).toFinset := by
      rw [List.mem_toFinset, List.mem_map]
      exact ⟨sig', hsig', rfl⟩
    rw [← hfeq, List.mem_toFinset] at this
    exact this
  rw [List.mem_map] at hidb
  obtain ⟨sigB, hsigB, hidBeq⟩ := hidb
  obtain ⟨aSig, hlook, hmatch⟩ := hall sigB hsigB
  have hlook' : sigLookup a.signatures sigB.id = some sig' := by
    rw [hidBeq]
    exact sigLookup_self_of_nodup ha hsig'
  have haSig : aSig = sig' := by
    rw [hlook] at hlook'
    exact Option.some.inj hlook'
  subst haSig
  refine ⟨sigB, ?_, sigMatch_symm hmatch⟩
  rw [← hidBeq]
  exact sigLookup_self_of_nodup hb hsigB

/-- C3 (amended): `Equal` is reflexive and symmetric provided each
argument's signature list contains no repeated signature id. -/
theorem equal_refl_and_symm_of_nodup_ids (a b : Attack)
    (ha : (a.signatures.map AttackSignature.id).Nodup)
    (hb : (b.signatures.map AttackSignature.id).Nodup) :
    Attack.Equal a a = true ∧ Attack.Equal a b = Attack.Equal b a := by
  constructor
  · rw [equal_eq_true_iff]
    refine ⟨rfl, rfl, timeEqual_self _, timeEqual_self _, rfl, ?_⟩
    intro sig hsig
    exact ⟨sig, sigLookup_self_of_nodup ha hsig, sigMatch_self sig⟩
  · cases hab : Attack.Equal a b with
    | true => exact (equal_of_equal_of_nodup ha hb hab).symm
    | false =>
      cases hba : Attack.Equal b a with
      | true => rw [equal_of_equal_of_nodup hb ha hba] at hab; cases hab
      | false => rfl

/-- Witness for C3 (amended): the scenario attacks have duplicate-free
signature ids, so `Equal attackA1 attackA1` is true and comparing
`attackA1` with `attackA1v2` is symmetric. -/
theorem equal_refl_and_symm_of_nodup_ids_witness :
    Attack.Equal attackA1 attackA1 = true ∧
    Attack.Equal attackA1 attackA1v2 = Attack.Equal attackA1v2 attackA1 :=
  equal_refl_and_symm_of_nodup_ids attackA1 attackA1v2 (by decide) (by decide)

theorem lookupKnown_cons (k : String) (v : Attack) (rest : KnownAttacks) (x : String) :
    lookupKnown ((k, v) :: rest) x = if k = x then some v else lookupKnown rest x := by
  by_cases h : k = x
  · simp [lookupKnown, List.find?_cons, h]
  · have hbeq : (((k, v) : String × Attack).1 == x) = false := by simp [h]
    simp [lookupKnown, List.find?_cons, hbeq, h]

theorem lookup_insert (known : KnownAttacks) (i : String) (a : Attack) (x : String) :
    lookupKnown (insertKnown known i a) x =
      if x = i then some a else lookupKnown known x := by
  induction known with
  | nil =>
    by_cases h : x = i
    · simp [insertKnown, lookupKnown_cons, h]
    · have hik : ¬ i = x := fun hh => h hh.symm
      simp [insertKnown, lookupKnown_cons, h, hik, lookupKnown]
  | cons p rest ih =>
    obtain ⟨k, v⟩ := p
    by_cases hk : k = i
    · have hb : (k == i) = true := by simp [hk]
      by_cases hx : x = i
      · have hkx : k = x := hk.trans hx.symm
        simp [insertKnown, hb, lookupKnown_cons, hkx, hx]
      · have hkx : ¬ k = x := fun hh => hx (hh.symm.trans hk)
        simp [insertKnown, hb, lookupKnown_cons, hkx, hx]
    · have hb : (k == i) = false := by simp [hk]
      by_cases hkx : k = x
      · have hxi : ¬ x = i := fun hh => hk (hkx.trans hh)
        simp [insertKnown, hb, lookupKnown_cons, hkx, hxi]
      · simp [insertKnown, hb, lookupKnown_cons, hkx, ih]

theorem insertKnown_mem (known : KnownAttacks) (i : String) (a : Attack) :
    ∀ p ∈ insertKnown known i a, p ∈ known ∨ p = (i, a) := by
  induction known with
  | nil =>
    intro p hp
    simp only [insertKnown, List.mem_singleton] at hp
    exact Or.inr hp
  | cons q rest ih =>
    obtain ⟨k, v⟩ := q
    intro p hp
    by_cases hk : k = i
    · have hb : (k == i) = true := by simp [hk]
      simp only [insertKnown, hb, if_true] at hp
      rcases List.mem_cons.mp hp with h | h
      · exact Or.inr (by rw [h, hk])
      · exact Or.inl (List.mem_cons_of_mem _ h)
    · have hb : (k == i) = false := by simp [hk]
      simp only [insertKnown, hb, Bool.false_eq_true, if_false] at hp
      rcases List.mem_cons.mp hp with h | h
      · exact Or.inl (h ▸ List.mem_cons_self _ _)
      · rcases ih p h with h2 | h2
        · exact Or.inl (List.mem_cons_of_mem _ h2)
        · exact Or.inr h2

theorem processActive_cons_new (attack : Attack) (rest : List Attack) (known : KnownAttacks)
    (h : lookupKnown known attack.id = none) :
    processActiveAttacks (attack :: rest) known =
      ((processActiveAttacks rest (insertKnown known attack.id attack)).1,
       Event.mk EventType.new attack ::
         (processActiveAttacks rest (insertKnown known attack.id attack)).2) := by
  simp only [processActiveAttacks, h]

theorem processActive_cons_updated (attack : Attack) (rest : List Attack)
    (known : KnownAttacks) (existing : Attack)
    (h : lookupKnown known attack.id = some existing) (hne : attack.Equal existing = false) :
    processActiveAttacks (attack :: rest) known =
      ((processActiveAttacks rest (insertKnown known attack.id attack)).1,
       Event.mk EventType.updated attack ::
         (processActiveAttacks rest (insertKnown known attack.id attack)).2) := by
  simp only [processActiveAttacks, h, hne, Bool.false_eq_true, if_false]

theorem processActive_cons_skip (attack : Attack) (rest : List Attack)
    (known : KnownAttacks) (existing : Attack)
    (h : lookupKnown known attack.id = some existing) (heq : attack.Equal existing = true) :
    processActiveAttacks (attack :: rest) known = processActiveAttacks rest known := by
  simp only [processActiveAttacks, h, heq, if_true]

theorem checkEnded_cons_fire (now : Int) (ids : List String) (i : String) (attack : Attack)
    (rest : KnownAttacks) (h : (!ids.contains i && attack.endedAt.isNone) = true) :
    checkEndedEntries now ids ((i, attack) :: rest) =
      ((i, { attack with endedAt := some now }) :: (checkEndedEntries now ids rest).1,
       Event.mk EventType.ended { attack with endedAt := some now } ::
         (checkEndedEntries now ids rest).2) := by
  simp only [checkEndedEntries, h, if_true]

theorem checkEnded_cons_keep (now : Int) (ids : List String) (i : String) (attack : Attack)
    (rest : KnownAttacks) (h : (!ids.contains i && attack.endedAt.isNone) = false) :
    checkEndedEntries now ids ((i, attack) :: rest) =
      ((i, attack) :: (checkEndedEntries now ids rest).1,
       (checkEndedEntries now ids rest).2) := by
  simp only [checkEndedEntries, h, Bool.false_eq_true, if_false]

theorem trackerStep_eq (now : Int) (attacks : List Attack) (known : KnownAttacks) :
    trackerStep now attacks known =
      (cleanupEndedAttacks now
         (checkForEndedAttacks now attacks (processActiveAttacks attacks known).1).1,
       (processActiveAttacks attacks known).2 ++
         (checkForEndedAttacks now attacks (processActiveAttacks attacks known).1).2) :=
  rfl

theorem runCycles_cons (cfg : Config) (now : Int) (fetch : Except String (List Attack))
    (rest : List Cycle) (known : KnownAttacks) :
    runCycles cfg ((now, fetch) :: rest) known =
      ((runCycles cfg rest (fetchAndProcessActiveAttacks cfg now fetch known).1).1,
       (fetchAndProcessActiveAttacks cfg now fetch known).2 ::
         (runCycles cfg rest (fetchAndProcessActiveAttacks cfg now fetch known).1).2) :=
  rfl

theorem runTracker_cons (now : Int) (attacks : List Attack)
    (rest : List (Int × List Attack)) (known : KnownAttacks) :
    runTracker ((now, attacks) :: rest) known =
      ((runTracker rest (trackerStep now attacks known).1).1,
       (trackerStep now attacks known).2 ::
         (runTracker rest (trackerStep now attacks known).1).2) :=
  rfl

theorem processActive_event_mem :
    ∀ (attacks : List Attack) (known : KnownAttacks) (e : Event),
      e ∈ (processActiveAttacks attacks known).2 → e.attack ∈ attacks := by
  intro attacks
  induction attacks with
  | nil =>
    intro known e he
    simp [processActiveAttacks] at he
  | cons attack rest ih =>
    intro known e he
    cases hl : lookupKnown known attack.id with
    | none =>
      rw [processActive_cons_new attack rest known hl] at he
      rcases List.mem_cons.mp he with h | h
      · rw [h]; exact List.mem_cons_self _ _
      · exact List.mem_cons_of_mem _ (ih _ e h)
    | some existing =>
      cases heq : attack.Equal existing with
      | true =>
        rw [processActive_cons_skip attack rest known existing hl heq] at he
        exact List.mem_cons_of_mem _ (ih _ e he)
      | false =>
        rw [processActive_cons_updated attack rest known existing hl heq] at he
        rcases List.mem_cons.mp he with h | h
        · rw [h]; exact List.mem_cons_self _ _
        · exact List.mem_cons_of_mem _ (ih _ e h)

theorem processActive_entry_mem :
    ∀ (attacks : List Attack) (known : KnownAttacks) (p : String × Attack),
      p ∈ (processActiveAttacks attacks known).1 →
        p ∈ known ∨ (p.2 ∈ attacks ∧ p.1 = p.2.id) := by
  intro attacks
  induction attacks with
  | nil =>
    intro known p hp
    exact Or.inl hp
  | cons attack rest ih =>
    intro known p hp
    have step : ∀ q ∈ insertKnown known attack.id attack,
        q ∈ known ∨ (q.2 ∈ attack :: rest ∧ q.1 = q.2.id) := by
      intro q hq
      rcases insertKnown_mem known attack.id attack q hq with h | h
      · exact Or.inl h
      · refine Or.inr ?_
        rw [h]
        exact ⟨List.mem_cons_self _ _, rfl⟩
    cases hl : lookupKnown known attack.id with
    | none =>
      rw [processActive_cons_new attack rest known hl] at hp
      rcases ih (insertKnown known attack.id attack) p hp with h | h
      · rcases step p h with h2 | h2
        · exact Or.inl h2
        · exact Or.inr h2
      · exact Or.inr ⟨List.mem_cons_of_mem _ h.1, h.2⟩
    | some existing =>
      cases heq : attack.Equal existing with
      | true =>
        rw [processActive_cons_skip attack rest known existing hl heq] at hp
        rcases ih known p hp with h | h
        · exact Or.inl h
        · exact Or.inr ⟨List.mem_cons_of_mem _ h.1, h.2⟩
      | false =>
        rw [processActive_cons_updated attack rest known existing hl heq] at hp
        rcases ih (insertKnown known attack.id attack) p hp with h | h
        · rcases step p h with h2 | h2
          · exact Or.inl h2
          · exact Or.inr h2
        · exact Or.inr ⟨List.mem_cons_of_mem _ h.1, h.2⟩

theorem checkEnded_event_shape (now : Int) (ids : List String) :
    ∀ (known : KnownAttacks) (e : Event), e ∈ (checkEndedEntries now ids known).2 →
      ∃ p ∈ known, e = Event.mk EventType.ended { p.2 with endedAt := some now } := by
  intro known
  induction known with
  | nil =>
    intro e he
    simp [checkEndedEntries] at he
  | cons q rest ih =>
    obtain ⟨i, attack⟩ := q
    intro e he
    cases hc : (!ids.contains i && attack.endedAt.isNone) with
    | true =>
      rw [checkEnded_cons_fire now ids i attack rest hc] at he
      rcases List.mem_cons.mp he with h | h
      · exact ⟨(i, attack), List.mem_cons_self _ _, h⟩
      · obtain ⟨p, hp, hmem⟩ := ih e h
        exact ⟨p, List.mem_cons_of_mem _ hp, hmem⟩
    | false =>
      rw [checkEnded_cons_keep now ids i attack rest hc] at he
      obtain ⟨p, hp, hmem⟩ := ih e he
      exact ⟨p, List.mem_cons_of_mem _ hp, hmem⟩

theorem checkEnded_entry_shape (now : Int) (ids : List String) :
    ∀ (known : KnownAttacks) (q : String × Attack),
      q ∈ (checkEndedEntries now ids known).1 →
      ∃ p ∈ known, q.1 = p.1 ∧ (q.2 = p.2 ∨ q.2 = { p.2 with endedAt := some now }) := by
  intro known
  induction known with
  | nil =>
    intro q hq
    simp [checkEndedEntries] at hq
  | cons r rest ih =>
    obtain ⟨i, attack⟩ := r
    intro q hq
    cases hc : (!ids.contains i && attack.endedAt.isNone) with
    | true =>
      rw [checkEnded_cons_fire now ids i attack rest hc] at hq
      rcases List.mem_cons.mp hq with h | h
      · exact ⟨(i, attack), List.mem_cons_self _ _, by rw [h], by rw [h]; exact Or.inr rfl⟩
      · obtain ⟨p, hp, hmem⟩ := ih q h
        exact ⟨p, List.mem_cons_of_mem _ hp, hmem⟩
    | false =>
      rw [checkEnded_cons_keep now ids i attack rest hc] at hq
      rcases List.mem_cons.mp hq with h | h
      · exact ⟨(i, attack), List.mem_cons_self _ _, by rw [h], by rw [h]; exact Or.inl rfl⟩
      · obtain ⟨p, hp, hmem⟩ := ih q h
        exact ⟨p, List.mem_cons_of_mem _ hp, hmem⟩

theorem cleanup_sub (now : Int) (known : KnownAttacks) :
    ∀ p ∈ cleanupEndedAttacks now known, p ∈ known := by
  intro p hp
  exact (List.mem_filter.mp hp).1

theorem modeFilter_not_blacklisted (cfg : Config) (attacks filtered : List Attack)
    (h : modeFilter cfg attacks = some filtered) :
    ∀ a ∈ filtered, cfg.IsBlacklisted a.dstAddressString = false := by
  unfold modeFilter at h
  split at h
  · intro a ha
    rw [Option.some.injEq] at h
    rw [← h] at ha
    have := List.of_mem_filter ha
    rw [Bool.and_eq_true] at this
    simpa using this.2
  · split at h
    · intro a ha
      rw [Option.some.injEq] at h
      rw [← h] at ha
      have := List.of_mem_filter ha
      simpa using this
    · cases h

theorem trackerStep_blacklist (cfg : Config) (now : Int) (attacks : List Attack)
    (known : KnownAttacks)
    (hatt : ∀ a ∈ attacks, cfg.IsBlacklisted a.dstAddressString = false)
    (hkn : ∀ p ∈ known, cfg.IsBlacklisted p.2.dstAddressString = false) :
    (∀ e ∈ (trackerStep now attacks known).2,
       cfg.IsBlacklisted e.attack.dstAddressString = false) ∧
    (∀ p ∈ (trackerStep now attacks known).1,
       cfg.IsBlacklisted p.2.dstAddressString = false) := by
  rw [trackerStep_eq]
  have hpa_entries : ∀ p ∈ (processActiveAttacks attacks known).1,
      cfg.IsBlacklisted p.2.dstAddressString = false := by
    intro p hp
    rcases processActive_entry_mem attacks known p hp with h | h
    · exact hkn p h
    · exact hatt p.2 h.1
  have hce_entries : ∀ q ∈ (checkForEndedAttacks now attacks
      (processActiveAttacks attacks known).1).1,
      cfg.IsBlacklisted q.2.dstAddressString = false := by
    intro q hq
    simp only [checkForEndedAttacks] at hq
    obtain ⟨p, hp, _, hv⟩ := checkEnded_entry_shape now (attacks.map Attack.id) _ q hq
    rcases hv with h | h
    · rw [h]; exact hpa_entries p hp
    · rw [h]; exact hpa_entries p hp
  constructor
  · intro e he
    rcases List.mem_append.mp he with h | h
    · exact hatt e.attack (processActive_event_mem attacks known e h)
    · simp only [checkForEndedAttacks] at h
      obtain ⟨p, hp, hev⟩ := checkEnded_event_shape now (attacks.map Attack.id) _ e h
      rw [hev]
      exact hpa_entries p hp
  · intro p hp
    exact hce_entries p (cleanup_sub now _ p hp)

theorem fetchAndProcess_blacklist (cfg : Config) (now : Int)
    (fetch : Except String (List Attack)) (known : KnownAttacks)
    (hkn : ∀ p ∈ known, cfg.IsBlacklisted p.2.dstAddressString = false) :
    (∀ e ∈ (fetchAndProcessActiveAttacks cfg now fetch known).2,
       cfg.IsBlacklisted e.attack.dstAddressString = false) ∧
    (∀ p ∈ (fetchAndProcessActiveAttacks cfg now fetch known).1,
       cfg.IsBlacklisted p.2.dstAddressString = false) := by
  cases fetch with
  | error msg =>
    constructor
    · intro e he
      simp [fetchAndProcessActiveAttacks] at he
    · intro p hp
      have : p ∈ known := by simpa [fetchAndProcessActiveAttacks] using hp
      exact hkn p this
  | ok attacks =>
    cases hmf : modeFilter cfg attacks with
    | none =>
      constructor
      · intro e he
        simp [fetchAndProcessActiveAttacks, hmf] at he
      · intro p hp
        have : p ∈ known := by simpa [fetchAndProcessActiveAttacks, hmf] using hp
        exact hkn p this
    | some filtered =>
      have heq : fetchAndProcessActiveAttacks cfg now (Except.ok attacks) known =
          trackerStep now (filtered.filter isValidAttack) known := by
        simp [fetchAndProcessActiveAttacks, hmf]
      rw [heq]
      apply trackerStep_blacklist
      · intro a ha
        exact modeFilter_not_blacklisted cfg attacks filtered hmf a (List.mem_of_mem_filter ha)
      · exact hkn

theorem runCycles_blacklist_aux (cfg : Config) :
    ∀ (cycles : List Cycle) (known : KnownAttacks),
      (∀ p ∈ known, cfg.IsBlacklisted p.2.dstAddressString = false) →
      ∀ evs ∈ (runCycles cfg cycles known).2, ∀ e ∈ evs,
        cfg.IsBlacklisted e.attack.dstAddressString = false := by
  intro cycles
  induction cycles with
  | nil =>
    intro known hkn evs hevs
    simp [runCycles] at hevs
  | cons c rest ih =>
    obtain ⟨now, fetch⟩ := c
    intro known hkn evs hevs
    rw [runCycles_cons] at hevs
    rcases List.mem_cons.mp hevs with h | h
    · rw [h]
      exact (fetchAndProcess_blacklist cfg now fetch known hkn).1
    · exact ih _ (fetchAndProcess_blacklist cfg now fetch known hkn).2 evs h

/-- C6: starting from an empty known-attacks table, no poll-cycle run ever
dispatches a New, Updated or Ended notification whose target address is on
the configured blacklist, whatever upstream reports. -/
theorem blacklisted_target_never_notified (cfg : Config) (cycles : List Cycle) :
    ∀ evs ∈ (runCycles cfg cycles []).2, ∀ e ∈ evs,
      cfg.IsBlacklisted e.attack.dstAddressString = false :=
  runCycles_blacklist_aux cfg cycles [] (by intro p hp; cases hp)

/-- Witness for C6: in a concrete run whose only cycle reports `attackA1`,
the dispatched New event's target is not blacklisted. -/
theorem blacklisted_target_never_notified_witness :
    cfgAll.IsBlacklisted attackA1.dstAddressString = false :=
  blacklisted_target_never_notified cfgAll [(1, Except.ok [attackA1])]
    [Event.mk EventType.new attackA1] (by decide) (Event.mk EventType.new attackA1) (by decide)

theorem lookupKnown_eq_none_iff (known : KnownAttacks) (x : String) :
    lookupKnown known x = none ↔ x ∉ known.map Prod.fst := by
  unfold lookupKnown
  rw [Option.map_eq_none', List.find?_eq_none]
  constructor
  · intro h hx
    rw [List.mem_map] at hx
    obtain ⟨p, hp, hpx⟩ := hx
    have := h p hp
    simp [hpx] at this
  · intro h p hp
    simp only [beq_iff_eq]
    intro hpx
    exact h (hpx ▸ List.mem_map_of_mem Prod.fst hp)

theorem eventsForId_append (x : String) (l r : List Event) :
    eventsForId x (l ++ r) = eventsForId x l ++ eventsForId x r := by
  simp [eventsForId, List.filter_append]

theorem eventsForId_cons_hit (x : String) (t : EventType) (a : Attack) (evs : List Event)
    (h : a.id = x) :
    eventsForId x (Event.mk t a :: evs) = t :: eventsForId x evs := by
  simp [eventsForId, List.filter_cons, h]

theorem eventsForId_cons_miss (x : String) (t : EventType) (a : Attack) (evs : List Event)
    (h : a.id ≠ x) :
    eventsForId x (Event.mk t a :: evs) = eventsForId x evs := by
  simp [eventsForId, List.filter_cons, h]

theorem eventsForId_eq_nil (x : String) (evs : List Event)
    (h : ∀ e ∈ evs, e.attack.id ≠ x) : eventsForId x evs = [] := by
  simp only [eventsForId, List.map_eq_nil_iff, List.filter_eq_nil_iff]
  intro e he
  simp [h e he]

theorem insertKnown_key_mem (i : String) (a : Attack) :
    ∀ (known : KnownAttacks) (y : String), y ∈ (insertKnown known i a).map Prod.fst →
      y ∈ known.map Prod.fst ∨ y = i := by
  intro known y hy
  rw [List.mem_map] at hy
  obtain ⟨p, hp, hpy⟩ := hy
  rcases insertKnown_mem known i a p hp with h | h
  · exact Or.inl (hpy ▸ List.mem_map_of_mem Prod.fst h)
  · right
    rw [← hpy, h]

theorem insertKnown_keys_nodup (i : String) (a : Attack) :
    ∀ known : KnownAttacks, (known.map Prod.fst).Nodup →
      ((insertKnown known i a).map Prod.fst).Nodup := by
  intro known
  induction known with
  | nil =>
    intro _
    simp [insertKnown]
  | cons q rest ih =>
    obtain ⟨k, v⟩ := q
    intro hnd
    rw [List.map_cons, List.nodup_cons] at hnd
    by_cases hk : k = i
    · have hb : (k == i) = true := by simp [hk]
      simp only [insertKnown, hb, if_true, List.map_cons, List.nodup_cons]
      exact hnd
    · have hb : (k == i) = false := by simp [hk]
      simp only [insertKnown, hb, Bool.false_eq_true, if_false, List.map_cons,
        List.nodup_cons]
      refine ⟨?_, ih hnd.2⟩
      intro hkmem
      rcases insertKnown_key_mem i a rest k hkmem with h | h
      · exact hnd.1 h
      · exact hk h

theorem insertKnown_keyed (i : String) (a : Attack) (hai : a.id = i) :
    ∀ known : KnownAttacks, (∀ p ∈ known, p.2.id = p.1) →
      ∀ p ∈ insertKnown known i a, p.2.id = p.1 := by
  intro known hkd p hp
  rcases insertKnown_mem known i a p hp with h | h
  · exact hkd p h
  · rw [h]
    exact hai

theorem insertKnown_WF (known : KnownAttacks) (a : Attack)
    (h : WFKnown known) : WFKnown (insertKnown known a.id a) :=
  ⟨insertKnown_keys_nodup a.id a known h.1, insertKnown_keyed a.id a rfl known h.2⟩

theorem processActive_WF :
    ∀ (attacks : List Attack) (known : KnownAttacks), WFKnown known →
      WFKnown (processActiveAttacks attacks known).1 := by
  intro attacks
  induction attacks with
  | nil =>
    intro known h
    exact h
  | cons attack rest ih =>
    intro known h
    cases hl : lookupKnown known attack.id with
    | none =>
      rw [processActive_cons_new attack rest known hl]
      exact ih _ (insertKnown_WF known attack h)
    | some existing =>
      cases heq : attack.Equal existing with
      | true =>
        rw [processActive_cons_skip attack rest known existing hl heq]
        exact ih _ h
      | false =>
        rw [processActive_cons_updated attack rest known existing hl heq]
        exact ih _ (insertKnown_WF known attack h)

theorem processActive_lookup_absent (x : String) :
    ∀ (attacks : List Attack) (known : KnownAttacks),
      x ∉ attacks.map Attack.id →
      lookupKnown (processActiveAttacks attacks known).1 x = lookupKnown known x := by
  intro attacks
  induction attacks with
  | nil =>
    intro known _
    rfl
  | cons attack rest ih =>
    intro known habs
    rw [List.map_cons, List.mem_cons] at habs
    push_neg at habs
    have hins : lookupKnown (insertKnown known attack.id attack) x = lookupKnown known x := by
      rw [lookup_insert]
      simp [habs.1]
    cases hl : lookupKnown known attack.id with
    | none =>
      rw [processActive_cons_new attack rest known hl, ih _ habs.2, hins]
    | some existing =>
      cases heq : attack.Equal existing with
      | true =>
        rw [processActive_cons_skip attack rest known existing hl heq, ih _ habs.2]
      | false =>
        rw [processActive_cons_updated attack rest known existing hl heq, ih _ habs.2, hins]

theorem processActive_events_absent (x : String) (attacks : List Attack)
    (known : KnownAttacks) (h : x ∉ attacks.map Attack.id) :
    eventsForId x (processActiveAttacks attacks known).2 = [] := by
  apply eventsForId_eq_nil
  intro e he hex
  exact h (hex ▸ List.mem_map_of_mem Attack.id (processActive_event_mem attacks known e he))

theorem processActive_known_id (x : String) :
    ∀ (attacks : List Attack) (known : KnownAttacks) (a0 : Attack),
      lookupKnown known x = some a0 →
      (∀ t ∈ eventsForId x (processActiveAttacks attacks known).2, t = EventType.updated) ∧
      ∃ a1, lookupKnown (processActiveAttacks attacks known).1 x = some a1 ∧
        (a1 = a0 ∨ (a1 ∈ attacks ∧ a1.id = x)) := by
  intro attacks
  induction attacks with
  | nil =>
    intro known a0 hlk
    refine ⟨?_, a0, hlk, Or.inl rfl⟩
    intro t ht
    simp [processActiveAttacks, eventsForId] at ht
  | cons attack rest ih =>
    intro known a0 hlk
    by_cases hid : attack.id = x
    · have hl : lookupKnown known attack.id = some a0 := by rw [hid]; exact hlk
      cases heq : attack.Equal a0 with
      | true =>
        rw [processActive_cons_skip attack rest known a0 hl heq]
        obtain ⟨hev, a1, ha1, hd⟩ := ih known a0 hlk
        refine ⟨hev, a1, ha1, ?_⟩
        rcases hd with h | h
        · exact Or.inl h
        · exact Or.inr ⟨List.mem_cons_of_mem _ h.1, h.2⟩
      | false =>
        rw [processActive_cons_updated attack rest known a0 hl heq]
        have hins : lookupKnown (insertKnown known attack.id attack) x = some attack := by
          rw [lookup_insert]
          simp [hid]
        obtain ⟨hev, a1, ha1, hd⟩ := ih (insertKnown known attack.id attack) attack hins
        constructor
        · rw [eventsForId_cons_hit x EventType.updated attack _ hid]
          intro t ht
          rcases List.mem_cons.mp ht with h | h
          · exact h
          · exact hev t h
        · refine ⟨a1, ha1, Or.inr ?_⟩
          rcases hd with h | h
          · exact ⟨h ▸ List.mem_cons_self _ _, by rw [h, hid]⟩
          · exact ⟨List.mem_cons_of_mem _ h.1, h.2⟩
    · have hstep : ∀ known1 : KnownAttacks,
          lookupKnown known1 x = some a0 →
          (∀ t ∈ eventsForId x (processActiveAttacks rest known1).2,
            t = EventType.updated) ∧
          ∃ a1, lookupKnown (processActiveAttacks rest known1).1 x = some a1 ∧
            (a1 = a0 ∨ (a1 ∈ attack :: rest ∧ a1.id = x)) := by
        intro known1 hlk1
        obtain ⟨hev, a1, ha1, hd⟩ := ih known1 a0 hlk1
        refine ⟨hev, a1, ha1, ?_⟩
        rcases hd with h | h
        · exact Or.inl h
        · exact Or.inr ⟨List.mem_cons_of_mem _ h.1, h.2⟩
      have hins : lookupKnown (insertKnown known attack.id attack) x = some a0 := by
        rw [lookup_insert]
        have : ¬ x = attack.id := fun hh => hid hh.symm
        simp [this, hlk]
      cases hl : lookupKnown known attack.id with
      | none =>
        rw [processActive_cons_new attack rest known hl]
        obtain ⟨hev, ha1⟩ := hstep _ hins
        refine ⟨?_, ha1⟩
        rw [eventsForId_cons_miss x EventType.new attack _ hid]
        exact hev
      | some existing =>
        cases heq : attack.Equal existing with
        | true =>
          rw [processActive_cons_skip attack rest known existing hl heq]
          exact hstep known hlk
        | false =>
          rw [processActive_cons_updated attack rest known existing hl heq]
          obtain ⟨hev, ha1⟩ := hstep _ hins
          refine ⟨?_, ha1⟩
          rw [eventsForId_cons_miss x EventType.updated attack _ hid]
          exact hev

theorem processActive_unseen_id (x : String) :
    ∀ (attacks : List Attack) (known : KnownAttacks),
      lookupKnown known x = none → x ∈ attacks.map Attack.id →
      (∃ tail, eventsForId x (processActiveAttacks attacks known).2 =
          EventType.new :: tail ∧ ∀ t ∈ tail, t = EventType.updated) ∧
      ∃ a1, lookupKnown (processActiveAttacks attacks known).1 x = some a1 ∧
        a1 ∈ attacks ∧ a1.id = x := by
  intro attacks
  induction attacks with
  | nil =>
    intro known _ hmem
    cases hmem
  | cons attack rest ih =>
    intro known hun hmem
    by_cases hid : attack.id = x
    · have hl : lookupKnown known attack.id = none := by rw [hid]; exact hun
      rw [processActive_cons_new attack rest known hl]
      have hins : lookupKnown (insertKnown known attack.id attack) x = some attack := by
        rw [lookup_insert]
        simp [hid]
      obtain ⟨hev, a1, ha1, hd⟩ := processActive_known_id x rest
        (insertKnown known attack.id attack) attack hins
      constructor
      · refine ⟨eventsForId x (processActiveAttacks rest
          (insertKnown known attack.id attack)).2, ?_, hev⟩
        rw [eventsForId_cons_hit x EventType.new attack _ hid]
      · refine ⟨a1, ha1, ?_⟩
        rcases hd with h | h
        · exact ⟨h ▸ List.mem_cons_self _ _, by rw [h, hid]⟩
        · exact ⟨List.mem_cons_of_mem _ h.1, h.2⟩
    · have hmem2 : x ∈ rest.map Attack.id := by
        rcases List.mem_cons.mp (List.map_cons Attack.id attack rest ▸ hmem) with h | h
        · exact absurd h.symm hid
        · exact h
      have hins : lookupKnown (insertKnown known attack.id attack) x = none := by
        rw [lookup_insert]
        have : ¬ x = attack.id := fun hh => hid hh.symm
        simp [this, hun]
      have hlift : ∀ known1 : KnownAttacks,
          lookupKnown known1 x = none →
          (∃ tail, eventsForId x (processActiveAttacks rest known1).2 =
              EventType.new :: tail ∧ ∀ t ∈ tail, t = EventType.updated) ∧
          ∃ a1, lookupKnown (processActiveAttacks rest known1).1 x = some a1 ∧
            a1 ∈ attack :: rest ∧ a1.id = x := by
        intro known1 hun1
        obtain ⟨htl, a1, ha1, hmem1, hid1⟩ := ih known1 hun1 hmem2
        exact ⟨htl, a1, ha1, List.mem_cons_of_mem _ hmem1, hid1⟩
      cases hl : lookupKnown known attack.id with
      | none =>
        rw [processActive_cons_new attack rest known hl]
        obtain ⟨htl, ha1⟩ := hlift _ hins
        refine ⟨?_, ha1⟩
        rw [eventsForId_cons_miss x EventType.new attack _ hid]
        exact htl
      | some existing =>
        cases heq : attack.Equal existing with
        | true =>
          rw [processActive_cons_skip attack rest known existing hl heq]
          exact hlift known hun
        | false =>
          rw [processActive_cons_updated attack rest known existing hl heq]
          obtain ⟨htl, ha1⟩ := hlift _ hins
          refine ⟨?_, ha1⟩
          rw [eventsForId_cons_miss x EventType.updated attack _ hid]
          exact htl

theorem checkEnded_keys (now : Int) (ids : List String) :
    ∀ known : KnownAttacks,
      (checkEndedEntries now ids known).1.map Prod.fst = known.map Prod.fst := by
  intro known
  induction known with
  | nil => rfl
  | cons q rest ih =>
    obtain ⟨i, attack⟩ := q
    cases hc : (!ids.contains i && attack.endedAt.isNone) with
    | true =>
      rw [checkEnded_cons_fire now ids i attack rest hc]
      simp [ih]
    | false =>
      rw [checkEnded_cons_keep now ids i attack rest hc]
      simp [ih]

theorem checkEnded_keyed (now : Int) (ids : List String) (known : KnownAttacks)
    (h : ∀ p ∈ known, p.2.id = p.1) :
    ∀ q ∈ (checkEndedEntries now ids known).1, q.2.id = q.1 := by
  intro q hq
  obtain ⟨p, hp, hq1, hv⟩ := checkEnded_entry_shape now ids known q hq
  rcases hv with h2 | h2
  · rw [hq1, h2]
    exact h p hp
  · rw [hq1, h2]
    exact h p hp

theorem checkEnded_no_key (now : Int) (ids : List String) (x : String)
    (known : KnownAttacks) (hx : x ∉ known.map Prod.fst)
    (hkd : ∀ p ∈ known, p.2.id = p.1) :
    eventsForId x (checkEndedEntries now ids known).2 = [] := by
  apply eventsForId_eq_nil
  intro e he hex
  obtain ⟨p, hp, hev⟩ := checkEnded_event_shape now ids known e he
  rw [hev] at hex
  have hpx : p.1 = x := by
    rw [← hkd p hp]
    exact hex
  exact hx (hpx ▸ List.mem_map_of_mem Prod.fst hp)

theorem checkEnded_lookup_some (now : Int) (ids : List String) (x : String) :
    ∀ (known : KnownAttacks) (a0 : Attack),
      (known.map Prod.fst).Nodup → (∀ p ∈ known, p.2.id = p.1) →
      lookupKnown known x = some a0 →
      lookupKnown (checkEndedEntries now ids known).1 x =
        some (if (!ids.contains x && a0.endedAt.isNone) then
          { a0 with endedAt := some now } else a0) ∧
      eventsForId x (checkEndedEntries now ids known).2 =
        (if (!ids.contains x && a0.endedAt.isNone) then [EventType.ended] else []) := by
  intro known
  induction known with
  | nil =>
    intro a0 _ _ hlk
    cases hlk
  | cons q rest ih =>
    obtain ⟨i, attack⟩ := q
    intro a0 hnd hkd hlk
    rw [List.map_cons, List.nodup_cons] at hnd
    by_cases hix : i = x
    · have ha0 : attack = a0 := by
        rw [lookupKnown_cons, if_pos hix] at hlk
        exact Option.some.inj hlk
      subst ha0
      subst hix
      have hrest_nokey : eventsForId i (checkEndedEntries now ids rest).2 = [] :=
        checkEnded_no_key now ids i rest hnd.1
          (fun p hp => hkd p (List.mem_cons_of_mem _ hp))
      have hid_head : attack.id = i := hkd (i, attack) (List.mem_cons_self _ _)
      cases hc : (!ids.contains i && attack.endedAt.isNone) with
      | true =>
        rw [checkEnded_cons_fire now ids i attack rest hc]
        constructor
        · rw [lookupKnown_cons]
          simp
        · rw [eventsForId_cons_hit i EventType.ended { attack with endedAt := some now }
            (checkEndedEntries now ids rest).2 hid_head, hrest_nokey]
          simp
      | false =>
        rw [checkEnded_cons_keep now ids i attack rest hc]
        constructor
        · rw [lookupKnown_cons]
          simp
        · simpa using hrest_nokey
    · have hlk2 : lookupKnown rest x = some a0 := by
        rw [lookupKnown_cons, if_neg hix] at hlk
        exact hlk
      have hid_head : attack.id = i := hkd (i, attack) (List.mem_cons_self _ _)
      have hidx : attack.id ≠ x := by
        rw [hid_head]
        exact hix
      obtain ⟨ihl, ihe⟩ := ih a0 hnd.2 (fun p hp => hkd p (List.mem_cons_of_mem _ hp)) hlk2
      cases hc : (!ids.contains i && attack.endedAt.isNone) with
      | true =>
        rw [checkEnded_cons_fire now ids i attack rest hc]
        constructor
        · rw [lookupKnown_cons, if_neg hix]
          exact ihl
        · rw [eventsForId_cons_miss x EventType.ended { attack with endedAt := some now }
            (checkEndedEntries now ids rest).2 hidx]
          exact ihe
      | false =>
        rw [checkEnded_cons_keep now ids i attack rest hc]
        constructor
        · rw [lookupKnown_cons, if_neg hix]
          exact ihl
        · exact ihe

theorem checkEnded_lookup_none (now : Int) (ids : List String) (x : String)
    (known : KnownAttacks) (hkd : ∀ p ∈ known, p.2.id = p.1)
    (hlk : lookupKnown known x = none) :
    lookupKnown (checkEndedEntries now ids known).1 x = none ∧
    eventsForId x (checkEndedEntries now ids known).2 = [] := by
  have hx : x ∉ known.map Prod.fst := (lookupKnown_eq_none_iff known x).mp hlk
  constructor
  · rw [lookupKnown_eq_none_iff, checkEnded_keys]
    exact hx
  · exact checkEnded_no_key now ids x known hx hkd

theorem checkForEnded_eq (now : Int) (attacks : List Attack) (known : KnownAttacks) :
    checkForEndedAttacks now attacks known =
      checkEndedEntries now (attacks.map Attack.id) known :=
  rfl

theorem checkEnded_WF (now : Int) (ids : List String) (known : KnownAttacks)
    (h : WFKnown known) : WFKnown (checkEndedEntries now ids known).1 :=
  ⟨by rw [checkEnded_keys]; exact h.1, checkEnded_keyed now ids known h.2⟩

theorem cleanup_keys_sublist (now : Int) (known : KnownAttacks) :
    List.Sublist ((cleanupEndedAttacks now known).map Prod.fst) (known.map Prod.fst) :=
  (List.filter_sublist known).map Prod.fst

theorem cleanup_WF (now : Int) (known : KnownAttacks) (h : WFKnown known) :
    WFKnown (cleanupEndedAttacks now known) :=
  ⟨h.1.sublist (cleanup_keys_sublist now known),
   fun p hp => h.2 p (cleanup_sub now known p hp)⟩

theorem cleanup_lookup_none (now : Int) (x : String) (known : KnownAttacks)
    (h : lookupKnown known x = none) :
    lookupKnown (cleanupEndedAttacks now known) x = none := by
  rw [lookupKnown_eq_none_iff] at h ⊢
  intro hmem
  exact h ((cleanup_keys_sublist now known).subset hmem)

theorem cleanup_lookup_some (now : Int) (x : String) :
    ∀ (known : KnownAttacks) (a : Attack), (known.map Prod.fst).Nodup →
      lookupKnown known x = some a →
      lookupKnown (cleanupEndedAttacks now known) x =
        (if retainEntry now a then some a else none) := by
  intro known
  induction known with
  | nil =>
    intro a _ h
    cases h
  | cons q rest ih =>
    obtain ⟨k, v⟩ := q
    intro a hnd hlk
    rw [List.map_cons, List.nodup_cons] at hnd
    by_cases hkx : k = x
    · have hva : v = a := by
        rw [lookupKnown_cons, if_pos hkx] at hlk
        exact Option.some.inj hlk
      subst hva
      cases hr : retainEntry now v with
      | true =>
        have heq : cleanupEndedAttacks now ((k, v) :: rest) =
            (k, v) :: cleanupEndedAttacks now rest := by
          simp [cleanupEndedAttacks, List.filter_cons, hr]
        rw [heq, lookupKnown_cons, if_pos hkx]
        simp
      | false =>
        have heq : cleanupEndedAttacks now ((k, v) :: rest) =
            cleanupEndedAttacks now rest := by
          simp [cleanupEndedAttacks, List.filter_cons, hr]
        rw [heq]
        have hnone : lookupKnown rest x = none := by
          rw [lookupKnown_eq_none_iff, ← hkx]
          exact hnd.1
        rw [cleanup_lookup_none now x rest hnone]
        simp
    · have hlk2 : lookupKnown rest x = some a := by
        rw [lookupKnown_cons, if_neg hkx] at hlk
        exact hlk
      cases hr : retainEntry now v with
      | true =>
        have heq : cleanupEndedAttacks now ((k, v) :: rest) =
            (k, v) :: cleanupEndedAttacks now rest := by
          simp [cleanupEndedAttacks, List.filter_cons, hr]
        rw [heq, lookupKnown_cons, if_neg hkx]
        exact ih a hnd.2 hlk2
      | false =>
        have heq : cleanupEndedAttacks now ((k, v) :: rest) =
            cleanupEndedAttacks now rest := by
          simp [cleanupEndedAttacks, List.filter_cons, hr]
        rw [heq]
        exact ih a hnd.2 hlk2

theorem retainEntry_of_active (now : Int) (a : Attack) (h : a.endedAt = none) :
    retainEntry now a = true := by
  simp [retainEntry, h]

theorem retainEntry_just_stamped (now : Int) (a : Attack) :
    retainEntry now { a with endedAt := some now } = true := by
  have h : ¬ (now - now > retentionWindow) := by
    simp only [retentionWindow]
    omega
  simp [retainEntry, h]
  simp only [retentionWindow]
  omega

theorem trackerStep_WF (now : Int) (attacks : List Attack) (known : KnownAttacks)
    (h : WFKnown known) : WFKnown (trackerStep now attacks known).1 := by
  rw [trackerStep_eq]
  apply cleanup_WF
  rw [checkForEnded_eq]
  exact checkEnded_WF now _ _ (processActive_WF attacks known h)

theorem trackerStep_unseen_absent (now : Int) (attacks : List Attack) (known : KnownAttacks)
    (x : String) (hwf : WFKnown known) (hun : lookupKnown known x = none)
    (habs : x ∉ attacks.map Attack.id) :
    lookupKnown (trackerStep now attacks known).1 x = none ∧
    eventsForId x (trackerStep now attacks known).2 = [] ∧
    WFKnown (trackerStep now attacks known).1 := by
  have hwf1 := processActive_WF attacks known hwf
  have hpl : lookupKnown (processActiveAttacks attacks known).1 x = none := by
    rw [processActive_lookup_absent x attacks known habs]
    exact hun
  obtain ⟨hcl, hce⟩ := checkEnded_lookup_none now (attacks.map Attack.id) x
    (processActiveAttacks attacks known).1 hwf1.2 hpl
  refine ⟨?_, ?_, trackerStep_WF now attacks known hwf⟩
  · rw [trackerStep_eq]
    apply cleanup_lookup_none
    rw [checkForEnded_eq]
    exact hcl
  · rw [trackerStep_eq]
    show eventsForId x ((processActiveAttacks attacks known).2 ++
      (checkForEndedAttacks now attacks (processActiveAttacks attacks known).1).2) = []
    rw [eventsForId_append, processActive_events_absent x attacks known habs,
      checkForEnded_eq, hce]
    rfl

theorem trackerStep_unseen_present (now : Int) (attacks : List Attack)
    (known : KnownAttacks) (x : String) (hwf : WFKnown known)
    (hun : lookupKnown known x = none) (hpres : x ∈ attacks.map Attack.id)
    (hactive : ∀ a ∈ attacks, a.endedAt = none) :
    (∃ tail, eventsForId x (trackerStep now attacks known).2 =
        EventType.new :: tail ∧ ∀ t ∈ tail, t = EventType.updated) ∧
    (∃ a1, lookupKnown (trackerStep now attacks known).1 x = some a1 ∧
      a1.endedAt = none) ∧
    WFKnown (trackerStep now attacks known).1 := by
  have hwf1 := processActive_WF attacks known hwf
  obtain ⟨⟨tail, htl, htlu⟩, a1, ha1, hmem, hida⟩ :=
    processActive_unseen_id x attacks known hun hpres
  have ha1none : a1.endedAt = none := hactive a1 hmem
  have hcond : (!(attacks.map Attack.id).contains x && a1.endedAt.isNone) = false := by
    have hc : (attacks.map Attack.id).contains x = true :=
      List.elem_eq_true_of_mem hpres
    rw [hc]
    rfl
  obtain ⟨hcl, hce⟩ := checkEnded_lookup_some now (attacks.map Attack.id) x
    (processActiveAttacks attacks known).1 a1 hwf1.1 hwf1.2 ha1
  rw [hcond] at hcl hce
  simp only [Bool.false_eq_true, if_false] at hcl hce
  refine ⟨?_, ?_, trackerStep_WF now attacks known hwf⟩
  · refine ⟨tail, ?_, htlu⟩
    rw [trackerStep_eq]
    show eventsForId x ((processActiveAttacks attacks known).2 ++
      (checkForEndedAttacks now attacks (processActiveAttacks attacks known).1).2) =
      EventType.new :: tail
    rw [eventsForId_append, htl, checkForEnded_eq, hce, List.append_nil]
  · refine ⟨a1, ?_, ha1none⟩
    rw [trackerStep_eq]
    show lookupKnown (cleanupEndedAttacks now
      (checkForEndedAttacks now attacks (processActiveAttacks attacks known).1).1) x =
      some a1
    rw [checkForEnded_eq,
      cleanup_lookup_some now x _ a1 (by rw [checkEnded_keys]; exact hwf1.1) hcl,
      retainEntry_of_active now a1 ha1none]
    rfl

theorem trackerStep_active_present (now : Int) (attacks : List Attack)
    (known : KnownAttacks) (x : String) (a0 : Attack) (hwf : WFKnown known)
    (hlk : lookupKnown known x = some a0) (ha0 : a0.endedAt = none)
    (hpres : x ∈ attacks.map Attack.id)
    (hactive : ∀ a ∈ attacks, a.endedAt = none) :
    (∀ t ∈ eventsForId x (trackerStep now attacks known).2, t = EventType.updated) ∧
    (∃ a1, lookupKnown (trackerStep now attacks known).1 x = some a1 ∧
      a1.endedAt = none) ∧
    WFKnown (trackerStep now attacks known).1 := by
  have hwf1 := processActive_WF attacks known hwf
  obtain ⟨hev, a1, ha1, hd⟩ := processActive_known_id x attacks known a0 hlk
  have ha1none : a1.endedAt = none := by
    rcases hd with h | h
    · rw [h]; exact ha0
    · exact hactive a1 h.1
  have hcond : (!(attacks.map Attack.id).contains x && a1.endedAt.isNone) = false := by
    have hc : (attacks.map Attack.id).contains x = true :=
      List.elem_eq_true_of_mem hpres
    rw [hc]
    rfl
  obtain ⟨hcl, hce⟩ := checkEnded_lookup_some now (attacks.map Attack.id) x
    (processActiveAttacks attacks known).1 a1 hwf1.1 hwf1.2 ha1
  rw [hcond] at hcl hce
  simp only [Bool.false_eq_true, if_false] at hcl hce
  refine ⟨?_, ?_, trackerStep_WF now attacks known hwf⟩
  · have hevents : eventsForId x (trackerStep now attacks known).2 =
        eventsForId x (processActiveAttacks attacks known).2 := by
      rw [trackerStep_eq]
      show eventsForId x ((processActiveAttacks attacks known).2 ++
        (checkForEndedAttacks now attacks (processActiveAttacks attacks known).1).2) =
        eventsForId x (processActiveAttacks attacks known).2
      rw [eventsForId_append, checkForEnded_eq, hce, List.append_nil]
    intro t ht
    rw [hevents] at ht
    exact hev t ht
  · refine ⟨a1, ?_, ha1none⟩
    rw [trackerStep_eq]
    show lookupKnown (cleanupEndedAttacks now
      (checkForEndedAttacks now attacks (processActiveAttacks attacks known).1).1) x =
      some a1
    rw [checkForEnded_eq,
      cleanup_lookup_some now x _ a1 (by rw [checkEnded_keys]; exact hwf1.1) hcl,
      retainEntry_of_active now a1 ha1none]
    rfl

theorem trackerStep_active_absent (now : Int) (attacks : List Attack)
    (known : KnownAttacks) (x : String) (a0 : Attack) (hwf : WFKnown known)
    (hlk : lookupKnown known x = some a0) (ha0 : a0.endedAt = none)
    (habs : x ∉ attacks.map Attack.id) :
    eventsForId x (trackerStep now attacks known).2 = [EventType.ended] ∧
    lookupKnown (trackerStep now attacks known).1 x =
      some { a0 with endedAt := some now } ∧
    WFKnown (trackerStep now attacks known).1 := by
  have hwf1 := processActive_WF attacks known hwf
  have hpl : lookupKnown (processActiveAttacks attacks known).1 x = some a0 := by
    rw [processActive_lookup_absent x attacks known habs]
    exact hlk
  have hcond : (!(attacks.map Attack.id).contains x && a0.endedAt.isNone) = true := by
    have hc : (attacks.map Attack.id).contains x = false := by
      simp [habs]
    rw [hc, ha0]
    rfl
  obtain ⟨hcl, hce⟩ := checkEnded_lookup_some now (attacks.map Attack.id) x
    (processActiveAttacks attacks known).1 a0 hwf1.1 hwf1.2 hpl
  rw [hcond] at hcl hce
  simp only [if_true] at hcl hce
  refine ⟨?_, ?_, trackerStep_WF now attacks known hwf⟩
  · rw [trackerStep_eq]
    show eventsForId x ((processActiveAttacks attacks known).2 ++
      (checkForEndedAttacks now attacks (processActiveAttacks attacks known).1).2) =
      [EventType.ended]
    rw [eventsForId_append, processActive_events_absent x attacks known habs,
      checkForEnded_eq, hce]
    rfl
  · rw [trackerStep_eq]
    show lookupKnown (cleanupEndedAttacks now
      (checkForEndedAttacks now attacks (processActiveAttacks attacks known).1).1) x =
      some { a0 with endedAt := some now }
    rw [checkForEnded_eq,
      cleanup_lookup_some now x _ _ (by rw [checkEnded_keys]; exact hwf1.1) hcl,
      retainEntry_just_stamped now a0]
    rfl

theorem trackerStep_dead_absent (now : Int) (attacks : List Attack)
    (known : KnownAttacks) (x : String) (hwf : WFKnown known)
    (hdead : ∀ b, lookupKnown known x = some b → b.endedAt ≠ none)
    (habs : x ∉ attacks.map Attack.id) :
    eventsForId x (trackerStep now attacks known).2 = [] ∧
    (∀ b, lookupKnown (trackerStep now attacks known).1 x = some b →
      b.endedAt ≠ none) ∧
    WFKnown (trackerStep now attacks known).1 := by
  cases hl : lookupKnown known x with
  | none =>
    obtain ⟨h1, h2, h3⟩ := trackerStep_unseen_absent now attacks known x hwf hl habs
    refine ⟨h2, ?_, h3⟩
    intro b hb
    rw [h1] at hb
    cases hb
  | some a0 =>
    have ha0 : a0.endedAt ≠ none := hdead a0 hl
    have hwf1 := processActive_WF attacks known hwf
    have hpl : lookupKnown (processActiveAttacks attacks known).1 x = some a0 := by
      rw [processActive_lookup_absent x attacks known habs]
      exact hl
    have hcond : (!(attacks.map Attack.id).contains x && a0.endedAt.isNone) = false := by
      have : a0.endedAt.isNone = false := by
        cases he : a0.endedAt with
        | none => exact absurd he ha0
        | some e => rfl
      rw [this]
      simp
    obtain ⟨hcl, hce⟩ := checkEnded_lookup_some now (attacks.map Attack.id) x
      (processActiveAttacks attacks known).1 a0 hwf1.1 hwf1.2 hpl
    rw [hcond] at hcl hce
    simp only [Bool.false_eq_true, if_false] at hcl hce
    refine ⟨?_, ?_, trackerStep_WF now attacks known hwf⟩
    · rw [trackerStep_eq]
      show eventsForId x ((processActiveAttacks attacks known).2 ++
        (checkForEndedAttacks now attacks (processActiveAttacks attacks known).1).2) = []
      rw [eventsForId_append, processActive_events_absent x attacks known habs,
        checkForEnded_eq, hce]
      rfl
    · have hlook : lookupKnown (trackerStep now attacks known).1 x =
          (if retainEntry now a0 then some a0 else none) := by
        rw [trackerStep_eq]
        show lookupKnown (cleanupEndedAttacks now (checkForEndedAttacks now attacks
          (processActiveAttacks attacks known).1).1) x = _
        rw [checkForEnded_eq,
          cleanup_lookup_some now x _ a0 (by rw [checkEnded_keys]; exact hwf1.1) hcl]
      intro b hb
      rw [hlook] at hb
      cases hr : retainEntry now a0 with
      | true =>
        rw [hr] at hb
        simp at hb
        subst hb
        exact ha0
      | false =>
        rw [hr] at hb
        simp at hb

theorem updates_append (l r : List EventType)
    (hl : ∀ t ∈ l, t = EventType.updated) (hr : updatesThenMaybeEnd r = true) :
    updatesThenMaybeEnd (l ++ r) = true := by
  induction l with
  | nil => simpa using hr
  | cons t ts ih =>
    have ht := hl t (List.mem_cons_self _ _)
    subst ht
    rw [List.cons_append]
    show updatesThenMaybeEnd (ts ++ r) = true
    exact ih fun u hu => hl u (List.mem_cons_of_mem _ hu)

theorem runEventsForId_cons (x : String) (evs : List Event) (evss : List (List Event)) :
    runEventsForId x (evs :: evss) = eventsForId x evs ++ runEventsForId x evss := by
  simp [runEventsForId, eventsForId_append]

theorem noReappear_tail_present (x : String) (ids : List String)
    (ls : List (List String)) (hc : ids.contains x = true)
    (h : noReappear x (ids :: ls) = true) : noReappear x ls = true := by
  have hmem : x ∈ ids := by simpa using hc
  simpa [noReappear, hmem] using h

theorem noReappear_tail_absent (x : String) (ids : List String)
    (ls : List (List String)) (hc : ids.contains x = false)
    (h : noReappear x (ids :: ls) = true) :
    ∀ l ∈ ls, l.contains x = false := by
  have hmem : x ∉ ids := by simpa using hc
  have h2 : ∀ l ∈ ls, x ∉ l := by simpa [noReappear, hmem] using h
  intro l hl
  simpa using h2 l hl

theorem runTracker_dead (x : String) :
    ∀ (cycles : List (Int × List Attack)) (known : KnownAttacks), WFKnown known →
      (∀ b, lookupKnown known x = some b → b.endedAt ≠ none) →
      (∀ c ∈ cycles, x ∉ c.2.map Attack.id) →
      runEventsForId x (runTracker cycles known).2 = [] ∧
      ∀ st ∈ trackerStates cycles known, ∀ b,
        lookupKnown st x = some b → b.endedAt ≠ none := by
  intro cycles
  induction cycles with
  | nil =>
    intro known _ _ _
    refine ⟨rfl, ?_⟩
    intro st hst
    cases hst
  | cons c rest ih =>
    obtain ⟨now, attacks⟩ := c
    intro known hwf hdead habs
    have habs1 : x ∉ attacks.map Attack.id :=
      habs (now, attacks) (List.mem_cons_self _ _)
    obtain ⟨hev, hdead1, hwf1⟩ :=
      trackerStep_dead_absent now attacks known x hwf hdead habs1
    obtain ⟨ihe, ihs⟩ := ih (trackerStep now attacks known).1 hwf1 hdead1
      (fun c hc => habs c (List.mem_cons_of_mem _ hc))
    constructor
    · show runEventsForId x ((trackerStep now attacks known).2 ::
        (runTracker rest (trackerStep now attacks known).1).2) = []
      rw [runEventsForId_cons, hev, ihe]
      rfl
    · intro st hst
      have hst2 : st ∈ (trackerStep now attacks known).1 ::
          trackerStates rest (trackerStep now attacks known).1 := hst
      rcases List.mem_cons.mp hst2 with h | h
      · rw [h]
        exact hdead1
      · exact ihs st h

theorem runTracker_active (x : String) :
    ∀ (cycles : List (Int × List Attack)) (known : KnownAttacks) (a0 : Attack),
      WFKnown known → lookupKnown known x = some a0 → a0.endedAt = none →
      (∀ c ∈ cycles, ∀ a ∈ c.2, a.endedAt = none) →
      noReappear x (cycles.map (fun c => c.2.map Attack.id)) = true →
      updatesThenMaybeEnd (runEventsForId x (runTracker cycles known).2) = true := by
  intro cycles
  induction cycles with
  | nil =>
    intro known a0 _ _ _ _ _
    rfl
  | cons c rest ih =>
    obtain ⟨now, attacks⟩ := c
    intro known a0 hwf hlk ha0 hactive hnore
    have hactive1 : ∀ a ∈ attacks, a.endedAt = none :=
      hactive (now, attacks) (List.mem_cons_self _ _)
    have hactive2 : ∀ c ∈ rest, ∀ a ∈ c.2, a.endedAt = none :=
      fun c hc => hactive c (List.mem_cons_of_mem _ hc)
    have hnoreq : noReappear x ((attacks.map Attack.id) ::
        rest.map (fun c => c.2.map Attack.id)) = true := hnore
    by_cases hpres : x ∈ attacks.map Attack.id
    · have hcont : (attacks.map Attack.id).contains x = true :=
        List.elem_eq_true_of_mem hpres
      have hnore2 := noReappear_tail_present x (attacks.map Attack.id)
        (rest.map fun c => c.2.map Attack.id) hcont hnoreq
      obtain ⟨hev, ⟨a1, ha1, ha1none⟩, hwf1⟩ :=
        trackerStep_active_present now attacks known x a0 hwf hlk ha0 hpres hactive1
      have iht := ih (trackerStep now attacks known).1 a1 hwf1 ha1 ha1none
        hactive2 hnore2
      show updatesThenMaybeEnd (runEventsForId x ((trackerStep now attacks known).2 ::
        (runTracker rest (trackerStep now attacks known).1).2)) = true
      rw [runEventsForId_cons]
      exact updates_append _ _ hev iht
    · have hcont : (attacks.map Attack.id).contains x = false := by
        simp [hpres]
      have hnore2 : ∀ c ∈ rest, x ∉ c.2.map Attack.id := by
        intro c hc2
        have := noReappear_tail_absent x (attacks.map Attack.id)
          (rest.map fun c => c.2.map Attack.id) hcont hnoreq
          (c.2.map Attack.id) (List.mem_map_of_mem _ hc2)
        simpa using this
      obtain ⟨hev, hlk1, hwf1⟩ :=
        trackerStep_active_absent now attacks known x a0 hwf hlk ha0 hpres
      have hdead1 : ∀ b, lookupKnown (trackerStep now attacks known).1 x = some b →
          b.endedAt ≠ none := by
        intro b hb
        rw [hlk1] at hb
        rw [← Option.some.inj hb]
        simp
      obtain ⟨ihe, _⟩ := runTracker_dead x rest (trackerStep now attacks known).1 hwf1
        hdead1 hnore2
      show updatesThenMaybeEnd (runEventsForId x ((trackerStep now attacks known).2 ::
        (runTracker rest (trackerStep now attacks known).1).2)) = true
      rw [runEventsForId_cons, hev, ihe]
      rfl

theorem runTracker_unseen (x : String) :
    ∀ (cycles : List (Int × List Attack)) (known : KnownAttacks),
      WFKnown known → lookupKnown known x = none →
      (∀ c ∈ cycles, ∀ a ∈ c.2, a.endedAt = none) →
      noReappear x (cycles.map (fun c => c.2.map Attack.id)) = true →
      lifecycleOrdered (runEventsForId x (runTracker cycles known).2) = true := by
  intro cycles
  induction cycles with
  | nil =>
    intro known _ _ _ _
    rfl
  | cons c rest ih =>
    obtain ⟨now, attacks⟩ := c
    intro known hwf hun hactive hnore
    have hactive1 : ∀ a ∈ attacks, a.endedAt = none :=
      hactive (now, attacks) (List.mem_cons_self _ _)
    have hactive2 : ∀ c ∈ rest, ∀ a ∈ c.2, a.endedAt = none :=
      fun c hc => hactive c (List.mem_cons_of_mem _ hc)
    have hnoreq : noReappear x ((attacks.map Attack.id) ::
        rest.map (fun c => c.2.map Attack.id)) = true := hnore
    by_cases hpres : x ∈ attacks.map Attack.id
    · have hcont : (attacks.map Attack.id).contains x = true :=
        List.elem_eq_true_of_mem hpres
      have hnore2 := noReappear_tail_present x (attacks.map Attack.id)
        (rest.map fun c => c.2.map Attack.id) hcont hnoreq
      obtain ⟨⟨tail, htl, htlu⟩, ⟨a1, ha1, ha1none⟩, hwf1⟩ :=
        trackerStep_unseen_present now attacks known x hwf hun hpres hactive1
      have iht := runTracker_active x rest (trackerStep now attacks known).1 a1 hwf1
        ha1 ha1none hactive2 hnore2
      show lifecycleOrdered (runEventsForId x ((trackerStep now attacks known).2 ::
        (runTracker rest (trackerStep now attacks known).1).2)) = true
      rw [runEventsForId_cons, htl, List.cons_append]
      show updatesThenMaybeEnd (tail ++ runEventsForId x
        (runTracker rest (trackerStep now attacks known).1).2) = true
      exact updates_append _ _ htlu iht
    · have hcont : (attacks.map Attack.id).contains x = false := by
        simp [hpres]
      have hnore2 : ∀ c ∈ rest, x ∉ c.2.map Attack.id := by
        intro c hc2
        have := noReappear_tail_absent x (attacks.map Attack.id)
          (rest.map fun c => c.2.map Attack.id) hcont hnoreq
          (c.2.map Attack.id) (List.mem_map_of_mem _ hc2)
        simpa using this
      obtain ⟨hl1, hev, hwf1⟩ :=
        trackerStep_unseen_absent now attacks known x hwf hun hpres
      have hdead1 : ∀ b, lookupKnown (trackerStep now attacks known).1 x = some b →
          b.endedAt ≠ none := by
        intro b hb
        rw [hl1] at hb
        cases hb
      obtain ⟨ihe, _⟩ := runTracker_dead x rest (trackerStep now attacks known).1 hwf1
        hdead1 hnore2
      show lifecycleOrdered (runEventsForId x ((trackerStep now attacks known).2 ::
        (runTracker rest (trackerStep now attacks known).1).2)) = true
      rw [runEventsForId_cons, hev, ihe]
      rfl

/-- Counterexample for C1: when an id reappears after its Ended event, the
tracker fires Updated after Ended. Cycle 1 reports A1 (New), cycle 2 omits it
(Ended), cycle 3 reports it again — the snapshot is not `Equal` to the ended
entry, so Updated fires, violating the claimed order. -/
theorem tracker_fires_update_after_ended :
    runEventsForId "A1"
      (runTracker [(1, [attackA1]), (2, []), (3, [attackA1])] []).2 =
      [EventType.new, EventType.ended, EventType.updated] ∧
    lifecycleOrdered [EventType.new, EventType.ended, EventType.updated] = false := by
  decide

/-- C1 (amended): for runs from the empty table over snapshot sets of active
attacks (`endedAt` absent) in which no id reappears in a later cycle after
being absent, every id's notifications follow the order New, then zero or
more Updated, then at most one final Ended. -/
theorem tracker_lifecycle_order_amended (cycles : List (Int × List Attack)) (x : String)
    (hactive : ∀ c ∈ cycles, ∀ a ∈ c.2, a.endedAt = none)
    (hnore : noReappear x (cycles.map (fun c => c.2.map Attack.id)) = true) :
    lifecycleOrdered (runEventsForId x (runTracker cycles []).2) = true :=
  runTracker_unseen x cycles []
    ⟨List.nodup_nil, fun p hp => absurd hp (List.not_mem_nil p)⟩ rfl hactive hnore

/-- Witness for C1 (amended): A1 seen in cycle 1 and gone in cycle 2 follows
the lifecycle order. -/
theorem tracker_lifecycle_order_amended_witness :
    lifecycleOrdered (runEventsForId "A1"
      (runTracker [(1, [attackA1]), (2, [])] []).2) = true :=
  tracker_lifecycle_order_amended [(1, [attackA1]), (2, [])] "A1"
    (by decide) (by decide)

/-- Counterexample for C2: after Ended fires for A1 in cycle 2, cycle 3's
snapshot re-reports A1 and the stored entry's `endedAt` reverts to absent. -/
theorem tracker_endedAt_reverts :
    (runTracker [(1, [attackA1]), (2, []), (3, [attackA1])] []).2.map
        (eventsForId "A1") =
      [[EventType.new], [EventType.ended], [EventType.updated]] ∧
    lookupKnown (runTracker [(1, [attackA1]), (2, []), (3, [attackA1])] []).1 "A1" =
      some attackA1 ∧
    attackA1.endedAt = none := by
  decide

/-- C2 (amended): if a cycle's processed snapshot set omits an id that is
present and un-ended in a well-formed known-attacks table, exactly one Ended
fires for it in that cycle, its entry is stamped `endedAt = now`, and
the stamp never reverts in later cycles whose snapshot sets do not re-report
the id. -/
theorem tracker_ended_once_and_monotone (now : Int) (attacks : List Attack)
    (post : List (Int × List Attack)) (known : KnownAttacks) (x : String) (a : Attack)
    (hwf : WFKnown known) (hlk : lookupKnown known x = some a) (ha : a.endedAt = none)
    (habs : x ∉ attacks.map Attack.id)
    (hpost : ∀ c ∈ post, x ∉ c.2.map Attack.id) :
    eventsForId x (trackerStep now attacks known).2 = [EventType.ended] ∧
    lookupKnown (trackerStep now attacks known).1 x =
      some { a with endedAt := some now } ∧
    ∀ st ∈ trackerStates post (trackerStep now attacks known).1, ∀ b,
      lookupKnown st x = some b → b.endedAt ≠ none := by
  obtain ⟨hev, hlk1, hwf1⟩ :=
    trackerStep_active_absent now attacks known x a hwf hlk ha habs
  refine ⟨hev, hlk1, ?_⟩
  have hdead1 : ∀ b, lookupKnown (trackerStep now attacks known).1 x = some b →
      b.endedAt ≠ none := by
    intro b hb
    rw [hlk1] at hb
    rw [← Option.some.inj hb]
    simp
  exact (runTracker_dead x post (trackerStep now attacks known).1 hwf1 hdead1 hpost).2

/-- Witness for C2 (amended): with A1 active in the table and an empty
cycle-2 snapshot set, exactly one Ended fires at instant 2, the entry is
stamped, and the stamp persists through a later empty cycle. -/
theorem tracker_ended_once_and_monotone_witness :
    eventsForId "A1" (trackerStep 2 [] [("A1", attackA1)]).2 = [EventType.ended] ∧
    lookupKnown (trackerStep 2 [] [("A1", attackA1)]).1 "A1" =
      some { attackA1 with endedAt := some 2 } ∧
    ∀ st ∈ trackerStates [(5, [])] (trackerStep 2 [] [("A1", attackA1)]).1, ∀ b,
      lookupKnown st "A1" = some b → b.endedAt ≠ none :=
  tracker_ended_once_and_monotone 2 [] [(5, [])] [("A1", attackA1)] "A1" attackA1
    ⟨by decide, by decide⟩ (by decide) (by decide) (by decide) (by decide)

end NeoProtect
